import Mathlib

set_option maxRecDepth 16000

/-!
Shallow embedding of the BlockChainBrainrot chain engine
(`src/core/node_core.py`, `src/core/blockchain_core.py`, `src/db/storage.py`).

Python strings are modelled as `List Char` (a Python `str` is a sequence of
code points, exactly `String.data` here); `bytes` values as `List Nat` with
each element `< 256`.  Numeric fields that the code only ever formats into
strings (the float timestamps and transaction amounts) are carried by their
textual representation, which is the only view of them the hashing code uses.
SHA-256 is implemented concretely below over byte lists, with 32-bit words as
`Nat` reduced `% 2^32` at every step.
-/

namespace BCB

abbrev Str := List Char

deriving instance DecidableEq for Except

/-- `String.data` shorthand: the `List Char` view of a string literal. -/
def str (s : String) : Str := s.data

/-! ## SHA-256 over byte lists -/

/-- Truncate to a 32-bit word. -/
def w32 (x : Nat) : Nat := x % 4294967296

/-- 32-bit addition. -/
def add32 (a b : Nat) : Nat := (a + b) % 4294967296

/-- 32-bit right rotation by `n`. -/
def rotr (n x : Nat) : Nat := ((x >>> n) ||| (x <<< (32 - n))) &&& 4294967295

/-- 32-bit complement. -/
def not32 (x : Nat) : Nat := x ^^^ 4294967295

def bigSigma0 (x : Nat) : Nat := rotr 2 x ^^^ rotr 13 x ^^^ rotr 22 x
def bigSigma1 (x : Nat) : Nat := rotr 6 x ^^^ rotr 11 x ^^^ rotr 25 x
def smallSigma0 (x : Nat) : Nat := rotr 7 x ^^^ rotr 18 x ^^^ (x >>> 3)
def smallSigma1 (x : Nat) : Nat := rotr 17 x ^^^ rotr 19 x ^^^ (x >>> 10)
def chFn (x y z : Nat) : Nat := (x &&& y) ^^^ (not32 x &&& z)
def majFn (x y z : Nat) : Nat := (x &&& y) ^^^ (x &&& z) ^^^ (y &&& z)

/-- The 64 SHA-256 round constants (FIPS 180-4), in decimal. -/
def kConsts : List Nat :=
  [1116352408, 1899447441, 3049323471, 3921009573, 961987163, 1508970993,
   2453635748, 2870763221, 3624381080, 310598401, 607225278, 1426881987,
   1925078388, 2162078206, 2614888103, 3248222580, 3835390401, 4022224774,
   264347078, 604807628, 770255983, 1249150122, 1555081692, 1996064986,
   2554220882, 2821834349, 2952996808, 3210313671, 3336571891, 3584528711,
   113926993, 338241895, 666307205, 773529912, 1294757372, 1396182291,
   1695183700, 1986661051, 2177026350, 2456956037, 2730485921, 2820302411,
   3259730800, 3345764771, 3516065817, 3600352804, 4094571909, 275423344,
   430227734, 506948616, 659060556, 883997877, 958139571, 1322822218,
   1537002063, 1747873779, 1955562222, 2024104815, 2227730452, 2361852424,
   2428436474, 2756734187, 3204031479, 3329325298]

/-- The SHA-256 working state: eight 32-bit words. -/
structure S8 where
  a : Nat
  b : Nat
  c : Nat
  d : Nat
  e : Nat
  f : Nat
  g : Nat
  h : Nat
deriving DecidableEq

/-- Initial hash state (FIPS 180-4), in decimal. -/
def initS8 : S8 :=
  ⟨1779033703, 3144134277, 1013904242, 2773480762,
   1359893119, 2600822924, 528734635, 1541459225⟩

/-- One SHA-256 round: `kw = (round constant, schedule word)`. -/
def sha256Round (s : S8) (kw : Nat × Nat) : S8 :=
  let t1 := (s.h + bigSigma1 s.e + chFn s.e s.f s.g + kw.1 + kw.2) % 4294967296
  let t2 := (bigSigma0 s.a + majFn s.a s.b s.c) % 4294967296
  ⟨(t1 + t2) % 4294967296, s.a, s.b, s.c, (s.d + t1) % 4294967296, s.e, s.f, s.g⟩

/-- Pack big-endian groups of four bytes into 32-bit words. -/
def bytesToWords : List Nat → List Nat
  | b0 :: b1 :: b2 :: b3 :: rest => (((b0 * 256 + b1) * 256 + b2) * 256 + b3) :: bytesToWords rest
  | _ => []

/-- Extend the schedule: `acc` holds the words produced so far, most recent
first; `n` more words are appended. -/
def extendSched : Nat → List Nat → List Nat
  | 0, acc => acc
  | n + 1, acc =>
      extendSched n
        ((add32 (add32 (smallSigma1 (acc.getD 1 0)) (acc.getD 6 0))
                (add32 (smallSigma0 (acc.getD 14 0)) (acc.getD 15 0))) :: acc)

/-- The 64-word message schedule of one 16-word block. -/
def schedule (ws : List Nat) : List Nat := (extendSched 48 ws.reverse).reverse

/-- Compress one 64-byte block into the running state. -/
def sha256Block (s : S8) (block : List Nat) : S8 :=
  let t := (kConsts.zip (schedule (bytesToWords block))).foldl sha256Round s
  ⟨add32 s.a t.a, add32 s.b t.b, add32 s.c t.c, add32 s.d t.d,
   add32 s.e t.e, add32 s.f t.f, add32 s.g t.g, add32 s.h t.h⟩

/-- Big-endian byte expansion of `v`, `n` bytes wide. -/
def toBytesBE : Nat → Nat → List Nat
  | 0, _ => []
  | n + 1, v => toBytesBE n (v / 256) ++ [v % 256]

/-- SHA-256 padding: `0x80`, zeros to 56 mod 64, then the 64-bit bit length. -/
def sha256Pad (msg : List Nat) : List Nat :=
  msg ++ 0x80 :: List.replicate ((119 - msg.length % 64) % 64) 0 ++ toBytesBE 8 (8 * msg.length)

/-- Split into 64-byte chunks; `fuel` bounds the recursion (callers pass the
list length, which always suffices). -/
def chunks64 : Nat → List Nat → List (List Nat)
  | _, [] => []
  | 0, l => [l]
  | fuel + 1, l => l.take 64 :: chunks64 fuel (l.drop 64)

/-- The 32-byte SHA-256 digest of a byte list. -/
def sha256Bytes (msg : List Nat) : List Nat :=
  let padded := sha256Pad msg
  let s := (chunks64 padded.length padded).foldl sha256Block initS8
  toBytesBE 4 s.a ++ toBytesBE 4 s.b ++ toBytesBE 4 s.c ++ toBytesBE 4 s.d ++
  toBytesBE 4 s.e ++ toBytesBE 4 s.f ++ toBytesBE 4 s.g ++ toBytesBE 4 s.h

/-- Lowercase hex digit. -/
def hexDigit (n : Nat) : Char := Char.ofNat (if n < 10 then 48 + n else 87 + n)

/-- Lowercase hex rendering of a byte list. -/
def bytesToHex : List Nat → Str
  | [] => []
  | b :: rest => hexDigit (b / 16) :: hexDigit (b % 16) :: bytesToHex rest

/-- UTF-8 encoding of one code point (`str.encode()` in the source). -/
def utf8Char (c : Char) : List Nat :=
  let n := c.toNat
  if n < 0x80 then [n]
  else if n < 0x800 then [0xc0 ||| (n >>> 6), 0x80 ||| (n &&& 63)]
  else if n < 0x10000 then
    [0xe0 ||| (n >>> 12), 0x80 ||| ((n >>> 6) &&& 63), 0x80 ||| (n &&& 63)]
  else
    [0xf0 ||| (n >>> 18), 0x80 ||| ((n >>> 12) &&& 63),
     0x80 ||| ((n >>> 6) &&& 63), 0x80 ||| (n &&& 63)]

/-- UTF-8 encoding of a string. -/
def utf8 : Str → List Nat
  | [] => []
  | c :: rest => utf8Char c ++ utf8 rest

/-- `hashlib.sha256(s.encode()).hexdigest()`: the lowercase-hex SHA-256 of a
string's UTF-8 bytes. -/
def sha256hex (s : Str) : Str := bytesToHex (sha256Bytes (utf8 s))

/-! ## Data model (`src/core/node_core.py`) -/

/-- Decimal rendering of a natural number (`f"{n}"` for a Python int). -/
def natToStr (n : Nat) : Str := Nat.toDigits 10 n

/-- Four lowercase hex digits, for `\uXXXX` escapes. -/
def hex4 (n : Nat) : Str :=
  [hexDigit ((n >>> 12) &&& 15), hexDigit ((n >>> 8) &&& 15),
   hexDigit ((n >>> 4) &&& 15), hexDigit (n &&& 15)]

/-- `json.dumps` escaping of one character (default `ensure_ascii=True`). -/
def jsonEscapeChar (c : Char) : Str :=
  if c = '"' then ['\\', '"']
  else if c = '\\' then ['\\', '\\']
  else if c = '\x08' then ['\\', 'b']
  else if c = '\t' then ['\\', 't']
  else if c = '\n' then ['\\', 'n']
  else if c = '\x0c' then ['\\', 'f']
  else if c = '\r' then ['\\', 'r']
  else if c.toNat < 0x20 then '\\' :: 'u' :: hex4 c.toNat
  else if c.toNat < 0x7f then [c]
  else if c.toNat < 0x10000 then '\\' :: 'u' :: hex4 c.toNat
  else
    '\\' :: 'u' :: hex4 (0xd800 + ((c.toNat - 0x10000) >>> 10)) ++
      '\\' :: 'u' :: hex4 (0xdc00 + ((c.toNat - 0x10000) &&& 0x3ff))

/-- `json.dumps` rendering of a string value, quotes included. -/
def jsonStr (s : Str) : Str := '"' :: (s.flatMap jsonEscapeChar) ++ ['"']

/-- A transaction (`Transaction` in `node_core.py`).  `amount` and
`timestamp` are Python floats that the chain engine only ever serializes;
they are carried here as their `json.dumps`/`f-string` textual form. -/
structure Transaction where
  sender : Str
  receiver : Str
  amount : Str
  timestamp : Str
deriving DecidableEq

/-- `json.dumps(self.to_dict(), sort_keys=True)`: keys in sorted order
(`amount`, `receiver`, `sender`, `timestamp`), default separators. -/
def Transaction.canonicalJson (t : Transaction) : Str :=
  str "\x7b\"amount\": " ++ t.amount ++
  str ", \"receiver\": " ++ jsonStr t.receiver ++
  str ", \"sender\": " ++ jsonStr t.sender ++
  str ", \"timestamp\": " ++ t.timestamp ++ str "\x7d"

/-- `Transaction.calculate_hash`: SHA-256 of the canonical key-sorted JSON. -/
def Transaction.calculate_hash (t : Transaction) : Str := sha256hex t.canonicalJson

/-- A block header (`BlockHeader` in `node_core.py`); `timestamp` is the
textual form of the float, the only view `calculate_hash` uses. -/
structure BlockHeader where
  previous_hash : Str
  merkle_root : Str
  timestamp : Str
  nonce : Nat
  difficulty : Nat
deriving DecidableEq

/-- `BlockHeader.calculate_hash`: SHA-256 of the f-string concatenation
`previous_hash ++ merkle_root ++ timestamp ++ nonce ++ difficulty`. -/
def BlockHeader.calculate_hash (h : BlockHeader) : Str :=
  sha256hex (h.previous_hash ++ h.merkle_root ++ h.timestamp ++
    natToStr h.nonce ++ natToStr h.difficulty)

/-- `hash.startswith('0' * n)`: the first `n` characters are `'0'`. -/
def startsZeros : Nat → Str → Bool
  | 0, _ => true
  | _ + 1, [] => false
  | n + 1, c :: rest => c == '0' && startsZeros n rest

/-! ## Merkle root (`Block.compute_merkle_root`) -/

/-- One list-comprehension pass: hash adjacent pairs `(a, b)` to
`sha256(a ++ b)` over the hex strings.  (The source indexes in steps of two
over an even-length list; a stray trailing element cannot occur there.) -/
def pairHash : List Str → List Str
  | a :: b :: rest => sha256hex (a ++ b) :: pairHash rest
  | _ => []

/-- One level of the while-loop: duplicate the last hash when the count is
odd, then pair-hash. -/
def merklePass (hs : List Str) : List Str :=
  pairHash (if hs.length % 2 = 0 then hs else hs ++ [hs.getLastD []])

/-- The while-loop of `compute_merkle_root`, with `fuel` bounding the number
of iterations (the list length always suffices). -/
def merkleLoop : Nat → List Str → List Str
  | 0, hs => hs
  | fuel + 1, hs => if hs.length > 1 then merkleLoop fuel (merklePass hs) else hs

/-- `Block.compute_merkle_root`: leaf hashes of the transactions in input
order, empty list mapped to `sha256("")`, then pairwise reduction to a root. -/
def compute_merkle_root (txs : List Transaction) : Str :=
  let hs := txs.map Transaction.calculate_hash
  match hs with
  | [] => sha256hex []
  | _ => (merkleLoop hs.length hs).headD []

/-! ## Mining (`Block.mine_block`) and block construction (`Block.__init__`) -/

/-- The unbounded `while True` nonce search, bounded here by `fuel`: returns
the final header and its sealed hash, or `none` if `fuel` runs out. -/
def mineLoop : Nat → BlockHeader → Option (BlockHeader × Str)
  | 0, _ => none
  | fuel + 1, hdr =>
    let hv := hdr.calculate_hash
    if startsZeros hdr.difficulty hv then some (hdr, hv)
    else mineLoop fuel { hdr with nonce := hdr.nonce + 1 }

/-- A block (`Block` in `node_core.py`). -/
structure Block where
  index : Nat
  transactions : List Transaction
  merkle_root : Str
  header : BlockHeader
  hash : Str
deriving DecidableEq

/-- `Block.__init__`: computes the Merkle root, builds the header with
`nonce = 0` and the given construction-time timestamp, and mines the hash.
`fuel` bounds the nonce search; `none` models a search still running. -/
def Block.make (fuel : Nat) (index : Nat) (transactions : List Transaction)
    (previous_hash : Str) (difficulty : Nat) (timestamp : Str) : Option Block :=
  let root := compute_merkle_root transactions
  match mineLoop fuel ⟨previous_hash, root, timestamp, 0, difficulty⟩ with
  | none => none
  | some (hdr, hv) => some ⟨index, transactions, root, hdr, hv⟩

/-- `Block.is_valid`: declared hash matches the recomputed header hash and
satisfies the declared difficulty. -/
def Block.is_valid (b : Block) : Bool :=
  b.hash == b.header.calculate_hash && startsZeros b.header.difficulty b.hash

/-! ## Chain validation (`src/core/blockchain_core.py`)

`valid_chain` and `valid_chain_headers` operate on the JSON wire dicts; the
record types below carry exactly the keys each function reads.  A block dict
holds its `merkle_root` both at top level and inside `header`; `valid_chain`
reads the top-level one when recomputing the header hash. -/

/-- A wire block dict as consumed by `valid_chain`. -/
structure BlockRec where
  index : Nat
  hash : Str
  merkle_root : Str
  header : BlockHeader
  transactions : List Transaction
deriving DecidableEq

instance : Inhabited BlockRec := ⟨⟨0, [], [], ⟨[], [], [], 0, 0⟩, []⟩⟩

/-- A wire header dict as consumed by `valid_chain_headers`. -/
structure HeaderRec where
  index : Nat
  previous_hash : Str
  merkle_root : Str
  timestamp : Str
  nonce : Nat
  difficulty : Nat
  hash : Str
deriving DecidableEq

instance : Inhabited HeaderRec := ⟨⟨0, [], [], [], 0, 0, []⟩⟩

/-- The header-hash recomputation inside `valid_chain`: note it concatenates
the block's top-level `merkle_root`, not `header['merkle_root']`. -/
def recomputedHash (b : BlockRec) : Str :=
  sha256hex (b.header.previous_hash ++ b.merkle_root ++ b.header.timestamp ++
    natToStr b.header.nonce ++ natToStr b.header.difficulty)

/-- The three per-block checks of the `valid_chain` loop body at `i ≥ 1`:
linkage, hash recomputation, proof of work. -/
def blockOk (prev cur : BlockRec) : Bool :=
  (cur.header.previous_hash == prev.hash) &&
  (recomputedHash cur == cur.hash) &&
  startsZeros cur.header.difficulty cur.hash

/-- The `for i in range(1, len(chain))` loop with its early returns. -/
def chainPairsOk : List BlockRec → Bool
  | a :: b :: rest => blockOk a b && chainPairsOk (b :: rest)
  | _ => true

/-- `Blockchain.valid_chain`: empty chains are rejected; the genesis block is
checked for proof of work only; every later block is checked by `blockOk`. -/
def valid_chain : List BlockRec → Bool
  | [] => false
  | g :: rest => startsZeros g.header.difficulty g.hash && chainPairsOk (g :: rest)

/-- The header-hash recomputation inside `valid_chain_headers`. -/
def headerRecHash (h : HeaderRec) : Str :=
  sha256hex (h.previous_hash ++ h.merkle_root ++ h.timestamp ++
    natToStr h.nonce ++ natToStr h.difficulty)

/-- The per-header checks of the `valid_chain_headers` loop body at `i ≥ 1`. -/
def headerOkStep (prev cur : HeaderRec) : Bool :=
  (cur.previous_hash == prev.hash) &&
  (headerRecHash cur == cur.hash) &&
  startsZeros cur.difficulty cur.hash

/-- The `for i in range(1, len(headers))` loop with its early returns. -/
def headerPairsOk : List HeaderRec → Bool
  | a :: b :: rest => headerOkStep a b && headerPairsOk (b :: rest)
  | _ => true

/-- `Blockchain.valid_chain_headers`: empty input rejected; the genesis
header is checked for hash recomputation *and* proof of work; every later
header is checked by `headerOkStep`. -/
def valid_chain_headers : List HeaderRec → Bool
  | [] => false
  | g :: rest =>
    (headerRecHash g == g.hash) && startsZeros g.difficulty g.hash &&
      headerPairsOk (g :: rest)

/-- The header record corresponding to a block, carrying the block's
top-level `merkle_root`, its header fields and its declared hash. -/
def BlockRec.toHeaderRec (b : BlockRec) : HeaderRec :=
  ⟨b.index, b.header.previous_hash, b.merkle_root, b.header.timestamp,
   b.header.nonce, b.header.difficulty, b.hash⟩

/-! ## Consensus (`Blockchain.resolve_conflicts`)

The HTTP collaborator is modelled by per-peer response assignments: `none`
models an unreachable peer or a malformed body (the caught `RequestError` /
`JSONDecodeError`), `some (status, payload)` a reply with that status code. -/

/-- The three responses a peer can be asked for during one resolution pass:
the one-header page carrying the reported `length`, the full header list,
and the full block list. -/
structure PeerResponses where
  lenResp : Option (Nat × Nat)
  headersResp : Option (Nat × List HeaderRec)
  chainResp : Option (Nat × List BlockRec)

/-- The body of the `for node in neighbours` loop, acting on the running
`(max_length, new_chain)` accumulator. -/
def processPeer (selfAddr : Str) (st : Nat × Option (List BlockRec))
    (peer : Str × PeerResponses) : Nat × Option (List BlockRec) :=
  if peer.1 == selfAddr then st
  else
    match peer.2.lenResp with
    | none => st
    | some (status, len) =>
      if status ≠ 200 then st
      else if len > st.1 then
        match peer.2.headersResp with
        | none => st
        | some (status2, headers) =>
          if status2 = 200 then
            if valid_chain_headers headers then
              match peer.2.chainResp with
              | none => st
              | some (status3, chain) =>
                if status3 = 200 then
                  if valid_chain chain then (len, some chain) else st
                else st
            else st
          else st
      else st

/-- The node-local state `resolve_conflicts` reads and writes: the stored
chain, the pending transaction list, and the in-memory chain mirror. -/
structure NodeState where
  storedChain : List BlockRec
  currentTransactions : List Transaction
  memChain : List BlockRec
deriving DecidableEq

/-- Modelled from the spec: `get_chain_length()` on the storage collaborator
(absent from `src/db/storage.py`; §6 of the spec gives the contract
`get_chain_length() -> integer`, the chain length). -/
def get_chain_length (st : NodeState) : Nat := st.storedChain.length

/-- `get_all_blocks`: the stored blocks, ordered by index (the stored list). -/
def get_all_blocks (st : NodeState) : List BlockRec := st.storedChain

/-- Modelled from the spec: `replace_chain(blocks)` on the storage
collaborator (absent from `src/db/storage.py`; §6 of the spec gives the
contract of an atomic wholesale replacement). -/
def replace_chain (st : NodeState) (c : List BlockRec) : NodeState :=
  { st with storedChain := c }

/-- The peer-polling loop of `resolve_conflicts`: fold `processPeer` over the
registered peers, starting from the local chain length and no candidate. -/
def resolveLoop (selfAddr : Str) (peers : List (Str × PeerResponses))
    (localLen : Nat) : Nat × Option (List BlockRec) :=
  peers.foldl (processPeer selfAddr) (localLen, none)

/-- `Blockchain.resolve_conflicts`: poll all peers, then — `if new_chain:`
(Python truthiness, so an empty list would also count as no candidate) —
replace the stored chain, clear `current_transactions`, reload the in-memory
mirror from storage, and report whether a replacement occurred. -/
def resolve_conflicts (selfAddr : Str) (peers : List (Str × PeerResponses))
    (st : NodeState) : NodeState × Bool :=
  match (resolveLoop selfAddr peers (get_chain_length st)).2 with
  | some c =>
    if c = [] then (st, false)
    else
      let st1 := { replace_chain st c with currentTransactions := [] }
      ({ st1 with memChain := get_all_blocks st1 }, true)
  | none => (st, false)

/-! ## Peer registration (`Blockchain.register_node`)

`urllib.parse.urlparse` is embedded for the fragment `register_node` uses:
scheme stripping, netloc extraction after `//`, fragment/query removal and
params splitting for the path. -/

/-- Characters allowed in a URL scheme after the initial letter. -/
def isSchemeChar (c : Char) : Bool :=
  c.isAlpha || c.isDigit || c == '+' || c == '-' || c == '.'

/-- Drop a leading `scheme:` when the text before the first `':'` is a
non-empty letter-initial run of scheme characters. -/
def stripScheme (u : Str) : Str :=
  let pre := u.takeWhile (fun c => c != ':')
  match pre with
  | [] => u
  | c :: _ =>
    if pre.length < u.length ∧ c.isAlpha ∧ pre.all isSchemeChar then
      u.drop (pre.length + 1)
    else u

/-- Split off the netloc: non-empty only after a leading `//`, running to the
first `/`, `?` or `#`. -/
def splitNetloc (u : Str) : Str × Str :=
  match u with
  | '/' :: '/' :: rest =>
    (rest.takeWhile (fun c => c != '/' && c != '?' && c != '#'),
     rest.dropWhile (fun c => c != '/' && c != '?' && c != '#'))
  | _ => ([], u)

/-- `urlparse`'s params split: remove `;params` from the last path segment. -/
def splitParamsPath (p : Str) : Str :=
  if p.contains '/' then
    let lastSeg := (p.reverse.takeWhile (fun c => c != '/')).reverse
    p.take (p.length - lastSeg.length) ++ lastSeg.takeWhile (fun c => c != ';')
  else p.takeWhile (fun c => c != ';')

/-- `urlparse(address).netloc`. -/
def urlparseNetloc (address : Str) : Str := (splitNetloc (stripScheme address)).1

/-- `urlparse(address).path`. -/
def urlparsePath (address : Str) : Str :=
  splitParamsPath
    (((splitNetloc (stripScheme address)).2.takeWhile (fun c => c != '#')).takeWhile
      (fun c => c != '?'))

/-- `parsed_url.netloc or parsed_url.path`. -/
def netlocOrPath (address : Str) : Str :=
  let n := urlparseNetloc address
  if n = [] then urlparsePath address else n

/-- `Blockchain.register_node`: add the parsed location to the registry if
new, leave the registry alone if known, raise `ValueError` (modelled as
`.error`) when no location can be extracted.  The Python `set` is modelled
as a duplicate-free list. -/
def register_node (nodes : List Str) (address : Str) : Except Unit (List Str) :=
  let netloc := netlocOrPath address
  if netloc ≠ [] then
    if netloc ∈ nodes then Except.ok nodes else Except.ok (netloc :: nodes)
  else Except.error ()

/-! ## Storage (`src/db/storage.py`) -/

/-- A `BlockDB` row; the height query reads only `index`, an SQL integer. -/
structure BlockRow where
  index : Int
  hash : Str
  previous_hash : Str
  merkle_root : Str
  timestamp : Str
  nonce : Nat
  difficulty : Nat
  transactions_data : Str
deriving DecidableEq

/-- `get_latest_block` (without transaction loading): `ORDER BY index DESC
LIMIT 1` — a stored row of maximal index, or `none` on an empty table. -/
def get_latest_block (rows : List BlockRow) : Option BlockRow :=
  rows.foldl
    (fun acc r =>
      match acc with
      | none => some r
      | some m => if r.index > m.index then some r else some m)
    none

/-- `get_blockchain_height`: the latest block's `index`, or `-1` when the
table is empty. -/
def get_blockchain_height (rows : List BlockRow) : Int :=
  match get_latest_block rows with
  | some b => b.index
  | none => -1

/-! ## Reference definition of the Merkle root, from the specification

The spec's words: leaf hashes in input order; while more than one hash
remains, duplicate the last hash when the level has odd length and replace
each adjacent pair `(a, b)` with SHA-256 of the hex-string concatenation
`a ++ b`; the empty input yields SHA-256 of the empty byte string.
Duplicating the last element of an odd level and then pairing is the same as
pairing greedily and hashing a lone final element with itself, which is how
`specPass` renders one level. -/

/-- One reduction level per the spec: adjacent pairs hash together; a lone
final hash (odd level) is the duplicated last element, hashed with itself. -/
def specPass : List Str → List Str
  | [] => []
  | [a] => [sha256hex (a ++ a)]
  | a :: b :: rest => sha256hex (a ++ b) :: specPass rest

/-- "Repeat until a single hash remains", fuelled like `merkleLoop`. -/
def specLoop : Nat → List Str → List Str
  | 0, hs => hs
  | fuel + 1, hs => if hs.length > 1 then specLoop fuel (specPass hs) else hs

/-- The spec's reference Merkle root of an ordered transaction list. -/
def merkleRootSpec (txs : List Transaction) : Str :=
  match txs.map Transaction.calculate_hash with
  | [] => sha256hex []
  | hs => (specLoop hs.length hs).headD []

/-! ## Concrete chains used to separate the validators -/

/-- A one-block chain whose declared hash `"x"` is not the recomputed header
hash, at difficulty 0 (so proof of work holds vacuously). -/
def genesisBadRecompute : BlockRec :=
  ⟨0, str "x", str "m", ⟨str "p", str "m", str "1", 0, 0⟩, []⟩

/-- A one-block chain whose stored `merkle_root` `"x"` is not the Merkle
root of its (empty) transaction list, at difficulty 0. -/
def merkleMismatchBlock : BlockRec :=
  ⟨0, str "h", str "x", ⟨str "p", str "x", str "1", 0, 0⟩, []⟩

/-! ## A concrete consensus scenario (single valid one-block peer chain) -/

/-- A one-header chain at difficulty 0 whose declared hash is the genuine
recomputed digest, so it passes `valid_chain_headers`. -/
def hdrsW : List HeaderRec :=
  [⟨0, str "p", str "m", str "1", 0, 0,
    str "f290cf917640b54b7302ec1046685c9bb8437d3b786f8a2ed6efa0b2a7143784"⟩]

/-- The corresponding one-block chain, passing `valid_chain`. -/
def chainW : List BlockRec :=
  [⟨0, str "f290cf917640b54b7302ec1046685c9bb8437d3b786f8a2ed6efa0b2a7143784",
    str "m", ⟨str "p", str "m", str "1", 0, 0⟩, []⟩]

/-- A reachable peer reporting length 2 and serving `hdrsW`/`chainW`. -/
def peerGood : Str × PeerResponses :=
  (str "peer1", ⟨some (200, 2), some (200, hdrsW), some (200, chainW)⟩)

/-- An unreachable peer: every request raises. -/
def peerDead : Str × PeerResponses := (str "peer2", ⟨none, none, none⟩)

/-- A node state with an empty local chain. -/
def stW : NodeState := ⟨[], [], []⟩

/-! ## Sanity: SHA-256 test vectors -/

/-- SHA-256 test vector: the digest of the empty message. -/
theorem sha256hex_empty :
    sha256hex [] = str "e3b0c44298fc1c149afbf4c8996fb92427ae41e4649b934ca495991b7852b855" := by
  decide

/-- SHA-256 test vector: the digest of `"abc"`. -/
theorem sha256hex_abc :
    sha256hex (str "abc") =
      str "ba7816bf8f01cfea414140de5dae2223b00361a396177a9cb410ff61f20015ad" := by
  decide

/-! ## C3: the header hash scheme -/

/-- C3: a header's hash is SHA-256 of the textual concatenation
`previous_hash ∥ merkle_root ∥ timestamp ∥ nonce ∥ difficulty` in that order
with no separators, and the recomputation inside `valid_chain` produces the
same value on the same field values (it reads the block-level
`merkle_root`). -/
theorem header_hash_scheme :
    ∀ h : BlockHeader,
      h.calculate_hash =
        sha256hex (h.previous_hash ++ h.merkle_root ++ h.timestamp ++
          natToStr h.nonce ++ natToStr h.difficulty)
    ∧ ∀ b : BlockRec,
        recomputedHash b =
          BlockHeader.calculate_hash { b.header with merkle_root := b.merkle_root } :=
  fun _ => ⟨rfl, fun _ => rfl⟩

/-! ## C6: `valid_chain` and transaction content -/

/-- The pairwise chain checks never look at transaction lists. -/
theorem chainPairsOk_map_tx (f : BlockRec → List Transaction) :
    ∀ c : List BlockRec,
      chainPairsOk (c.map fun b => { b with transactions := f b }) = chainPairsOk c
  | [] => rfl
  | [_] => rfl
  | a :: b :: rest =>
    congrArg (fun t => blockOk a b && t) (chainPairsOk_map_tx f (b :: rest))

/-- C6 counterexample: a one-block chain whose stored `merkle_root` is not
the Merkle root recomputed from its transactions, yet `valid_chain` accepts
it — full-chain validation does not perform the Merkle recomputation. -/
theorem valid_chain_merkle_mismatch_cex :
    valid_chain [merkleMismatchBlock] = true ∧
      merkleMismatchBlock.merkle_root ≠
        compute_merkle_root merkleMismatchBlock.transactions := by
  constructor
  · decide
  · decide

/-- C6 amended: `valid_chain` never recomputes a Merkle root from the
transaction lists; its verdict is entirely independent of transaction
content (it reads only the declared hashes, the stored `merkle_root`s and
the header fields). -/
theorem valid_chain_ignores_transactions :
    ∀ (c : List BlockRec) (f : BlockRec → List Transaction),
      valid_chain (c.map fun b => { b with transactions := f b }) = valid_chain c
  | [], _ => rfl
  | g :: rest, f =>
    congrArg (fun t => startsZeros g.header.difficulty g.hash && t)
      (chainPairsOk_map_tx f (g :: rest))

/-! ## C7: header-only validation versus full-chain validation -/

/-- The per-link header checks coincide with the per-link block checks on
the corresponding header records. -/
theorem headerPairsOk_map :
    ∀ c : List BlockRec,
      headerPairsOk (c.map BlockRec.toHeaderRec) = chainPairsOk c
  | [] => rfl
  | [_] => rfl
  | a :: b :: rest =>
    congrArg (fun t => blockOk a b && t) (headerPairsOk_map (b :: rest))

/-- C7 counterexample: the two entry points are not equivalent — a one-block
chain whose genesis fails hash recomputation but passes proof of work is
accepted by `valid_chain` and rejected by `valid_chain_headers`. -/
theorem valid_chain_vs_headers_cex :
    valid_chain [genesisBadRecompute] = true ∧
      valid_chain_headers ([genesisBadRecompute].map BlockRec.toHeaderRec) = false := by
  constructor
  · decide
  · decide

/-- C7 amended: header-only validation performs the same checks as
full-chain validation on the corresponding header records *plus* one extra
genesis check: it also requires the genesis recomputed hash to equal its
declared hash.  Hence it equals `valid_chain` conjoined with that check
(both reject the empty sequence), and in particular implies it. -/
theorem valid_chain_headers_vs_valid_chain :
    ∀ c : List BlockRec,
      valid_chain_headers (c.map BlockRec.toHeaderRec) =
        match c with
        | [] => false
        | g :: _ => (recomputedHash g == g.hash) && valid_chain c
  | [] => rfl
  | g :: rest =>
    Eq.trans
      (congrArg
        (fun t => ((recomputedHash g == g.hash) &&
          startsZeros g.header.difficulty g.hash) && t)
        (headerPairsOk_map (g :: rest)))
      (Bool.and_assoc _ _ _)

/-! ## C5: the mining search -/

/-- C5: when the nonce search terminates it returns the hash of the final
header, that hash meets the difficulty target, every header field other than
the nonce is untouched, the search started from the initial nonce, and every
nonce between the initial and the final one was a failed attempt (the nonce
advances by exactly 1 per failure). -/
theorem mine_block_spec :
    ∀ (fuel : Nat) (hdr hdr' : BlockHeader) (hv : Str),
      mineLoop fuel hdr = some (hdr', hv) →
      hv = hdr'.calculate_hash
      ∧ startsZeros hdr'.difficulty hv = true
      ∧ hdr'.previous_hash = hdr.previous_hash
      ∧ hdr'.merkle_root = hdr.merkle_root
      ∧ hdr'.timestamp = hdr.timestamp
      ∧ hdr'.difficulty = hdr.difficulty
      ∧ hdr.nonce ≤ hdr'.nonce
      ∧ ∀ n, hdr.nonce ≤ n → n < hdr'.nonce →
          startsZeros hdr.difficulty
            (BlockHeader.calculate_hash { hdr with nonce := n }) = false := by
  intro fuel
  induction fuel with
  | zero =>
    intro hdr hdr' hv h
    exact absurd h (by simp [mineLoop])
  | succ fuel ih =>
    intro hdr hdr' hv h
    simp only [mineLoop] at h
    split at h
    · next hz =>
      obtain ⟨rfl, rfl⟩ : hdr = hdr' ∧ hdr.calculate_hash = hv := by
        have := Option.some.inj h
        exact ⟨congrArg Prod.fst this, congrArg Prod.snd this⟩
      refine ⟨rfl, hz, rfl, rfl, rfl, rfl, Nat.le_refl _, ?_⟩
      intro n h1 h2
      omega
    · next hz =>
      obtain ⟨e1, e2, e3, e4, e5, e6, e7, e8⟩ := ih _ hdr' hv h
      refine ⟨e1, e2, e3, e4, e5, e6, by simp at e7; omega, ?_⟩
      intro n h1 h2
      rcases Nat.eq_or_lt_of_le h1 with rfl | hlt
      · exact Bool.not_eq_true _ ▸ Bool.eq_false_iff.mpr hz
      · simpa using e8 n (by simpa using hlt) h2

/-- C5 witness: at difficulty 0 the search succeeds immediately on the
initial nonce, returning the genuine SHA-256 of `"pm100"`. -/
theorem mine_block_spec_witness :
    startsZeros (BlockHeader.mk (str "p") (str "m") (str "1") 0 0).difficulty
      (str "f290cf917640b54b7302ec1046685c9bb8437d3b786f8a2ed6efa0b2a7143784") = true :=
  (mine_block_spec 1 ⟨str "p", str "m", str "1", 0, 0⟩
    ⟨str "p", str "m", str "1", 0, 0⟩
    (str "f290cf917640b54b7302ec1046685c9bb8437d3b786f8a2ed6efa0b2a7143784")
    (by decide)).2.1

/-! ## C8: freshly constructed blocks are valid -/

/-- C8: a freshly constructed block (when its mining search terminates)
satisfies the four single-block invariants: its `merkle_root` is the Merkle
root of its transaction list, the header carries the same root, the hash is
the recomputed header hash, and the hash meets the declared difficulty — so
`is_valid` holds. -/
theorem block_make_invariants :
    ∀ (fuel index : Nat) (txs : List Transaction) (prev : Str) (diff : Nat)
      (ts : Str) (b : Block),
      Block.make fuel index txs prev diff ts = some b →
      b.transactions = txs
      ∧ b.merkle_root = compute_merkle_root b.transactions
      ∧ b.header.merkle_root = b.merkle_root
      ∧ b.hash = b.header.calculate_hash
      ∧ startsZeros b.header.difficulty b.hash = true
      ∧ b.is_valid = true := by
  intro fuel index txs prev diff ts b h
  simp only [Block.make] at h
  split at h
  · exact absurd h (by simp)
  · next hdr hv hm =>
    obtain rfl : (⟨index, txs, compute_merkle_root txs, hdr, hv⟩ : Block) = b :=
      Option.some.inj h
    obtain ⟨e1, e2, _, e4, _, _, _, _⟩ := mine_block_spec fuel _ hdr hv hm
    refine ⟨rfl, rfl, by simpa using e4, e1, e2, ?_⟩
    simp only [Block.is_valid, e1, beq_self_eq_true, Bool.true_and]
    exact e1 ▸ e2

/-- C8 witness: a concretely constructed empty block at difficulty 0, with
the real SHA-256 digests, is valid. -/
theorem block_make_invariants_witness :
    (Block.mk 0 []
      (str "e3b0c44298fc1c149afbf4c8996fb92427ae41e4649b934ca495991b7852b855")
      ⟨str "", str "e3b0c44298fc1c149afbf4c8996fb92427ae41e4649b934ca495991b7852b855",
       str "1", 0, 0⟩
      (str "a2a361e4e8d51dbed15226b93094eac59628070f1ba5c6c97ab57424dbd69512")).is_valid
      = true :=
  (block_make_invariants 1 0 [] (str "") 0 (str "1")
    (Block.mk 0 []
      (str "e3b0c44298fc1c149afbf4c8996fb92427ae41e4649b934ca495991b7852b855")
      ⟨str "", str "e3b0c44298fc1c149afbf4c8996fb92427ae41e4649b934ca495991b7852b855",
       str "1", 0, 0⟩
      (str "a2a361e4e8d51dbed15226b93094eac59628070f1ba5c6c97ab57424dbd69512"))
    (by decide)).2.2.2.2.2

/-! ## C4: the Merkle root computation -/

/-- Padding an odd level with its own last element and then pairing is the
same as pairing greedily and hashing the lone final element with itself. -/
theorem merklePass_eq_specPass : ∀ hs : List Str, merklePass hs = specPass hs
  | [] => rfl
  | [_] => rfl
  | a :: b :: rest => by
    by_cases heven : rest.length % 2 = 0
    · have h2 : (a :: b :: rest).length % 2 = 0 := by simp only [List.length]; omega
      simp only [merklePass, if_pos h2]
      show sha256hex (a ++ b) :: pairHash rest = sha256hex (a ++ b) :: specPass rest
      have ih := merklePass_eq_specPass rest
      simp only [merklePass, if_pos heven] at ih
      rw [ih]
    · have hne : rest ≠ [] := by
        intro h
        rw [h] at heven
        exact heven rfl
      have h2 : ¬((a :: b :: rest).length % 2 = 0) := by simp only [List.length]; omega
      simp only [merklePass, if_neg h2]
      have hlast : (a :: b :: rest).getLastD [] = rest.getLastD [] := by
        rw [List.getLastD_cons, List.getLastD_cons]
        cases rest with
        | nil => exact absurd rfl hne
        | cons x xs => rw [List.getLastD_cons, List.getLastD_cons]
      rw [hlast]
      show sha256hex (a ++ b) :: pairHash (rest ++ [rest.getLastD []]) =
        sha256hex (a ++ b) :: specPass rest
      have ih := merklePass_eq_specPass rest
      simp only [merklePass, if_neg heven] at ih
      rw [ih]

/-- The two fuelled while-loops agree level by level. -/
theorem merkleLoop_eq_specLoop : ∀ (fuel : Nat) (hs : List Str),
    merkleLoop fuel hs = specLoop fuel hs
  | 0, _ => rfl
  | fuel + 1, hs => by
    by_cases h : hs.length > 1
    · simp only [merkleLoop, specLoop, if_pos h]
      rw [merklePass_eq_specPass, merkleLoop_eq_specLoop fuel (specPass hs)]
    · simp only [merkleLoop, specLoop, if_neg h]

/-- One reduction level maps `n` hashes to `⌈n / 2⌉`. -/
theorem specPass_length : ∀ hs : List Str, (specPass hs).length = (hs.length + 1) / 2
  | [] => rfl
  | [_] => by simp only [specPass, List.length]
  | a :: b :: rest => by
    simp only [specPass, List.length, specPass_length rest]
    omega

/-- With fuel at least the level size, the reduction reaches a single hash
on every non-empty input: the source's `while` loop terminates and
`tx_hashes[0]` is that lone survivor. -/
theorem specLoop_singleton :
    ∀ (fuel : Nat) (hs : List Str), hs ≠ [] → hs.length ≤ fuel →
      ∃ h, specLoop fuel hs = [h] := by
  intro fuel
  induction fuel with
  | zero =>
    intro hs h1 h2
    exact absurd (List.length_eq_zero.mp (Nat.le_zero.mp h2)) h1
  | succ fuel ih =>
    intro hs h1 h2
    simp only [specLoop]
    by_cases hlen : hs.length > 1
    · rw [if_pos hlen]
      have hl := specPass_length hs
      refine ih (specPass hs) ?_ ?_
      · intro hnil
        rw [hnil] at hl
        simp only [List.length] at hl
        omega
      · omega
    · rw [if_neg hlen]
      cases hs with
      | nil => exact absurd rfl h1
      | cons x xs =>
        have : xs = [] := by
          simp only [List.length] at hlen
          exact List.length_eq_zero.mp (by omega)
        exact ⟨x, by rw [this]⟩

/-- C4: `compute_merkle_root` equals the spec's reference definition: the
empty list yields SHA-256 of the empty byte string, and a non-empty list is
reduced level by level — duplicating the last hash of an odd level and
hashing adjacent pairs over hex-string concatenation — to the lone
surviving hash.  Determinism is immediate: it is a function of the ordered
list. -/
theorem compute_merkle_root_correct :
    ∀ txs : List Transaction,
      compute_merkle_root txs = merkleRootSpec txs
      ∧ (txs = [] → compute_merkle_root txs = sha256hex [])
      ∧ (txs ≠ [] →
          ∃ h,
            specLoop (txs.map Transaction.calculate_hash).length
              (txs.map Transaction.calculate_hash) = [h]
            ∧ compute_merkle_root txs = h) := by
  intro txs
  refine ⟨?_, ?_, ?_⟩
  · cases txs with
    | nil => rfl
    | cons t ts =>
      show (merkleLoop _ _).headD [] = (specLoop _ _).headD []
      rw [merkleLoop_eq_specLoop]
      rfl
  · intro h
    rw [h]
    rfl
  · intro hne
    have hmapne : txs.map Transaction.calculate_hash ≠ [] := by
      simpa using hne
    obtain ⟨h, hh⟩ :=
      specLoop_singleton (txs.map Transaction.calculate_hash).length
        (txs.map Transaction.calculate_hash) hmapne (Nat.le_refl _)
    refine ⟨h, hh, ?_⟩
    cases txs with
    | nil => exact absurd rfl hne
    | cons t ts =>
      show (merkleLoop _ _).headD [] = h
      rw [merkleLoop_eq_specLoop, hh]
      rfl

/-- C4 witness: the empty list takes the sentinel branch, and a concrete
one-transaction list reduces to its genuine SHA-256 leaf hash. -/
theorem compute_merkle_root_correct_witness :
    compute_merkle_root [] = sha256hex []
    ∧ ∃ h,
        specLoop
          (([Transaction.mk (str "a") (str "b") (str "1") (str "2")].map
            Transaction.calculate_hash).length)
          ([Transaction.mk (str "a") (str "b") (str "1") (str "2")].map
            Transaction.calculate_hash) = [h]
        ∧ compute_merkle_root
            [Transaction.mk (str "a") (str "b") (str "1") (str "2")] = h :=
  ⟨(compute_merkle_root_correct []).2.1 rfl,
   (compute_merkle_root_correct
      [Transaction.mk (str "a") (str "b") (str "1") (str "2")]).2.2 (by decide)⟩

/-! ## C9: peer registration -/

/-- C9: registration is idempotent and validates addresses — a known parsed
location is a no-op returning the registry unchanged (not an error), a
second registration of the same address changes nothing, and an address
with no extractable location is rejected with `ValueError`, leaving the
registry unchanged. -/
theorem register_node_spec :
    ∀ (nodes : List Str) (address : Str),
      (netlocOrPath address ≠ [] → netlocOrPath address ∈ nodes →
        register_node nodes address = Except.ok nodes)
      ∧ (∀ ns, register_node nodes address = Except.ok ns →
          register_node ns address = Except.ok ns)
      ∧ (netlocOrPath address = [] →
          register_node nodes address = Except.error ()) := by
  intro nodes address
  have hchar : ∀ ns : List Str,
      register_node ns address =
        if netlocOrPath address = [] then Except.error ()
        else if netlocOrPath address ∈ ns then Except.ok ns
        else Except.ok (netlocOrPath address :: ns) := by
    intro ns
    simp only [register_node]
    by_cases h1 : netlocOrPath address = []
    · rw [if_neg (by simpa using h1), if_pos h1]
    · rw [if_pos h1, if_neg h1]
  refine ⟨?_, ?_, ?_⟩
  · intro h1 h2
    rw [hchar nodes, if_neg h1, if_pos h2]
  · intro ns h
    rw [hchar nodes] at h
    by_cases h1 : netlocOrPath address = []
    · rw [if_pos h1] at h
      exact absurd h (by simp)
    · rw [if_neg h1] at h
      by_cases h2 : netlocOrPath address ∈ nodes
      · rw [if_pos h2] at h
        obtain rfl : nodes = ns := Except.ok.inj h
        rw [hchar nodes, if_neg h1, if_pos h2]
      · rw [if_neg h2] at h
        obtain rfl : netlocOrPath address :: nodes = ns := Except.ok.inj h
        rw [hchar _, if_neg h1, if_pos (List.mem_cons_self _ _)]
  · intro h1
    rw [hchar nodes, if_pos h1]

/-- C9 witness: registering `"127.0.0.1:8001"` twice starting from the empty
registry leaves exactly the one entry, and registering `""` raises. -/
theorem register_node_spec_witness :
    register_node [str "127.0.0.1:8001"] (str "127.0.0.1:8001") =
      Except.ok [str "127.0.0.1:8001"]
    ∧ register_node [] (str "") = Except.error () :=
  ⟨(register_node_spec [] (str "127.0.0.1:8001")).2.1
      [str "127.0.0.1:8001"] (by decide),
   (register_node_spec [] (str "")).2.2 (by decide)⟩

/-! ## C10: the storage height query -/

/-- The fold implementing `ORDER BY index DESC LIMIT 1` returns a row of
maximal index, dominating the seed and every row of the list. -/
theorem foldl_latest (rows : List BlockRow) :
    ∀ a : BlockRow,
      ∃ m,
        rows.foldl
          (fun acc r =>
            match acc with
            | none => some r
            | some m => if r.index > m.index then some r else some m)
          (some a) = some m
        ∧ (m ∈ rows ∨ m = a)
        ∧ a.index ≤ m.index
        ∧ ∀ r ∈ rows, r.index ≤ m.index := by
  induction rows with
  | nil =>
    intro a
    exact ⟨a, rfl, Or.inr rfl, Int.le_refl _, by simp⟩
  | cons r rows ih =>
    intro a
    by_cases hr : r.index > a.index
    · obtain ⟨m, h1, h2, h3, h4⟩ := ih r
      refine ⟨m, ?_, ?_, ?_, ?_⟩
      · rw [List.foldl_cons]
        simpa [hr] using h1
      · rcases h2 with hm | rfl
        · exact Or.inl (List.mem_cons_of_mem _ hm)
        · exact Or.inl (List.mem_cons_self _ _)
      · omega
      · intro x hx
        rcases List.mem_cons.mp hx with rfl | hx
        · exact h3
        · exact h4 x hx
    · obtain ⟨m, h1, h2, h3, h4⟩ := ih a
      refine ⟨m, ?_, ?_, h3, ?_⟩
      · rw [List.foldl_cons]
        simpa [hr] using h1
      · rcases h2 with hm | rfl
        · exact Or.inl (List.mem_cons_of_mem _ hm)
        · exact Or.inr rfl
      · intro x hx
        rcases List.mem_cons.mp hx with rfl | hx
        · omega
        · exact h4 x hx

/-- C10: the height query returns `-1` on an empty table, otherwise the
index of a highest-index stored row; on an index-contiguous chain starting
at 0 this is the block count minus one, never the count itself. -/
theorem get_blockchain_height_spec :
    ∀ rows : List BlockRow,
      (rows = [] → get_blockchain_height rows = -1)
      ∧ (rows ≠ [] →
          ∃ b ∈ rows, get_blockchain_height rows = b.index
            ∧ ∀ r ∈ rows, r.index ≤ b.index)
      ∧ (rows.map (fun r => r.index) =
            (List.range rows.length).map (fun n : Nat => (n : Int)) →
          get_blockchain_height rows = (rows.length : Int) - 1) := by
  intro rows
  have hmain : rows ≠ [] →
      ∃ b ∈ rows, get_blockchain_height rows = b.index
        ∧ ∀ r ∈ rows, r.index ≤ b.index := by
    intro hne
    cases rows with
    | nil => exact absurd rfl hne
    | cons r rs =>
      obtain ⟨m, h1, h2, h3, h4⟩ := foldl_latest rs r
      refine ⟨m, ?_, ?_, ?_⟩
      · rcases h2 with hm | rfl
        · exact List.mem_cons_of_mem _ hm
        · exact List.mem_cons_self _ _
      · show (match get_latest_block (r :: rs) with
            | some b => b.index
            | none => -1) = m.index
        rw [show get_latest_block (r :: rs) = some m from h1]
      · intro x hx
        rcases List.mem_cons.mp hx with rfl | hx
        · exact h3
        · exact h4 x hx
  refine ⟨fun h => by rw [h]; rfl, hmain, ?_⟩
  intro hmap
  by_cases hne : rows = []
  · subst hne
    rfl
  · obtain ⟨b, hb_mem, hb_eq, hb_max⟩ := hmain hne
    have hlenpos : 0 < rows.length := List.length_pos.mpr hne
    have hb_in : b.index ∈ rows.map (fun r => r.index) :=
      List.mem_map.mpr ⟨b, hb_mem, rfl⟩
    rw [hmap] at hb_in
    obtain ⟨k, hk_mem, hk_eq⟩ := List.mem_map.mp hb_in
    have hk_lt : k < rows.length := List.mem_range.mp hk_mem
    have htop : ((rows.length - 1 : Nat) : Int) ∈ rows.map (fun r => r.index) := by
      rw [hmap]
      exact List.mem_map.mpr
        ⟨rows.length - 1, List.mem_range.mpr (by omega), rfl⟩
    obtain ⟨rtop, hrtop_mem, hrtop_eq⟩ := List.mem_map.mp htop
    have h5 := hb_max rtop hrtop_mem
    rw [hrtop_eq, ← hk_eq] at h5
    rw [hb_eq, ← hk_eq]
    omega

/-- C10 witness: the empty table reports `-1`; a contiguous two-block table
with indices `0, 1` reports height `1`, the count minus one. -/
theorem get_blockchain_height_spec_witness :
    get_blockchain_height [] = -1
    ∧ get_blockchain_height
        [⟨0, str "a", str "", str "", str "", 0, 0, str ""⟩,
         ⟨1, str "b", str "a", str "", str "", 0, 0, str ""⟩] =
      (([⟨0, str "a", str "", str "", str "", 0, 0, str ""⟩,
         ⟨1, str "b", str "a", str "", str "", 0, 0, str ""⟩] : List BlockRow).length : Int) - 1 :=
  ⟨(get_blockchain_height_spec []).1 rfl,
   (get_blockchain_height_spec
      [⟨0, str "a", str "", str "", str "", 0, 0, str ""⟩,
       ⟨1, str "b", str "a", str "", str "", 0, 0, str ""⟩]).2.2 (by decide)⟩

/-! ## C1: what `valid_chain` rejects, exactly -/

/-- The validation loop succeeds exactly when every adjacent pair passes the
three per-block checks. -/
theorem chainPairsOk_iff :
    ∀ c : List BlockRec,
      chainPairsOk c = true ↔
        ∀ i, i + 1 < c.length →
          blockOk (c.getD i default) (c.getD (i + 1) default) = true := by
  intro c
  induction c with
  | nil =>
    constructor
    · intro _ i hi
      exact absurd hi (by simp)
    · intro _
      rfl
  | cons a c ih =>
    cases c with
    | nil =>
      constructor
      · intro _ i hi
        simp only [List.length] at hi
        omega
      · intro _
        rfl
    | cons b c2 =>
      rw [show chainPairsOk (a :: b :: c2) =
            (blockOk a b && chainPairsOk (b :: c2)) from rfl,
          Bool.and_eq_true, ih]
      constructor
      · rintro ⟨h0, hrest⟩ i hi
        cases i with
        | zero => simpa using h0
        | succ j =>
          have := hrest j (by simpa using hi)
          simpa using this
      · intro h
        refine ⟨by simpa using h 0 (by simp), ?_⟩
        intro j hj
        have := h (j + 1) (by simpa using hj)
        simpa using this

/-- C1 counterexample: a one-block chain whose genesis recomputed header
hash differs from its declared hash is *accepted* by `valid_chain` (the
genesis block is only checked for proof of work), contradicting the claim
that a hash-recomputation mismatch on any block, genesis included, forces
rejection. -/
theorem valid_chain_genesis_recompute_cex :
    valid_chain [genesisBadRecompute] = true
    ∧ recomputedHash genesisBadRecompute ≠ genesisBadRecompute.hash := by
  constructor
  · decide
  · decide

/-- C1 amended: `valid_chain` returns `false` exactly when the sequence is
empty, the genesis hash misses its declared difficulty, some later block's
`previous_hash` differs from its predecessor's declared hash, some
*non-genesis* block fails hash recomputation (the genesis block is exempt),
or some block (genesis included) fails its declared difficulty. -/
theorem valid_chain_false_iff :
    ∀ c : List BlockRec,
      valid_chain c = false ↔
        c = []
        ∨ (∃ g, c.head? = some g ∧ startsZeros g.header.difficulty g.hash = false)
        ∨ (∃ i, i + 1 < c.length ∧
            (c.getD (i + 1) default).header.previous_hash ≠ (c.getD i default).hash)
        ∨ (∃ i, i + 1 < c.length ∧
            recomputedHash (c.getD (i + 1) default) ≠ (c.getD (i + 1) default).hash)
        ∨ (∃ i, i < c.length ∧
            startsZeros ((c.getD i default).header.difficulty)
              ((c.getD i default).hash) = false) := by
  intro c
  cases c with
  | nil => simp [valid_chain]
  | cons g rest =>
    have htrue : valid_chain (g :: rest) = true ↔
        startsZeros g.header.difficulty g.hash = true ∧
        ∀ i, i + 1 < (g :: rest).length →
          ((g :: rest).getD (i + 1) default).header.previous_hash =
              ((g :: rest).getD i default).hash
          ∧ recomputedHash ((g :: rest).getD (i + 1) default) =
              ((g :: rest).getD (i + 1) default).hash
          ∧ startsZeros ((g :: rest).getD (i + 1) default).header.difficulty
              ((g :: rest).getD (i + 1) default).hash = true := by
      rw [show valid_chain (g :: rest) =
            (startsZeros g.header.difficulty g.hash && chainPairsOk (g :: rest)) from rfl,
          Bool.and_eq_true, chainPairsOk_iff]
      simp only [blockOk, Bool.and_eq_true, beq_iff_eq, and_assoc]
    constructor
    · intro h
      by_cases hz : startsZeros g.header.difficulty g.hash = true
      · have hnall : ¬ ∀ i, i + 1 < (g :: rest).length →
            ((g :: rest).getD (i + 1) default).header.previous_hash =
                ((g :: rest).getD i default).hash
            ∧ recomputedHash ((g :: rest).getD (i + 1) default) =
                ((g :: rest).getD (i + 1) default).hash
            ∧ startsZeros ((g :: rest).getD (i + 1) default).header.difficulty
                ((g :: rest).getD (i + 1) default).hash = true := by
          intro hall
          rw [htrue.mpr ⟨hz, hall⟩] at h
          exact absurd h (by decide)
        push_neg at hnall
        obtain ⟨i, hi, hbad⟩ := hnall
        by_cases h1 : ((g :: rest).getD (i + 1) default).header.previous_hash =
            ((g :: rest).getD i default).hash
        · by_cases h2 : recomputedHash ((g :: rest).getD (i + 1) default) =
              ((g :: rest).getD (i + 1) default).hash
          · have h3 := hbad h1 h2
            exact Or.inr (Or.inr (Or.inr (Or.inr ⟨i + 1, hi, by simpa using h3⟩)))
          · exact Or.inr (Or.inr (Or.inr (Or.inl ⟨i, hi, h2⟩)))
        · exact Or.inr (Or.inr (Or.inl ⟨i, hi, h1⟩))
      · exact Or.inr (Or.inl ⟨g, rfl, by simpa using hz⟩)
    · intro h
      rcases h with hnil | ⟨g', hg', hz⟩ | ⟨i, hi, hlink⟩ | ⟨i, hi, hrec⟩ | ⟨i, hi, hpow⟩
      · exact absurd hnil (by simp)
      all_goals {
        by_contra hvc
        have hvt : valid_chain (g :: rest) = true := by
          cases hb : valid_chain (g :: rest) with
          | true => rfl
          | false => exact absurd hb hvc
        obtain ⟨hz', hall⟩ := htrue.mp hvt
        first
        | · obtain rfl : g = g' := Option.some.inj hg'
            rw [hz'] at hz
            exact absurd hz (by decide)
        | · exact hlink (hall i hi).1
        | · exact hrec (hall i hi).2.1
        | · cases i with
            | zero =>
              rw [show ((g :: rest).getD 0 default) = g from rfl, hz'] at hpow
              exact absurd hpow (by decide)
            | succ j =>
              rw [(hall j (by simpa using hi)).2.2] at hpow
              exact absurd hpow (by decide)
      }

/-! ## C2: conflict resolution -/

/-- C2: the peer-polling loop of `resolve_conflicts` — an unreachable peer
or one answering a non-success status contributes no candidate and the loop
continues over the remaining peers; a peer's chain becomes the best
candidate exactly when its reported length exceeds the running maximum
(initialised to the local chain length, raised to the reported length on
each adoption), its header list passes `valid_chain_headers`, and its block
list passes `valid_chain`; any surviving candidate passed full validation;
and afterwards a surviving candidate replaces the chain wholesale, clears
the pending transactions, reloads the in-memory mirror from storage and
returns `true`, while no candidate leaves the state unchanged and returns
`false`. -/
theorem resolve_conflicts_spec :
    ∀ (selfAddr : Str) (peers : List (Str × PeerResponses)) (st : NodeState),
      (∀ (acc : Nat × Option (List BlockRec)) (p : Str × PeerResponses),
        (p.2.lenResp = none ∨ ∀ s l, p.2.lenResp = some (s, l) → s ≠ 200) →
        processPeer selfAddr acc p = acc)
      ∧ (∀ (localLen : Nat) (p : Str × PeerResponses)
            (rest : List (Str × PeerResponses)),
          (p.2.lenResp = none ∨ ∀ s l, p.2.lenResp = some (s, l) → s ≠ 200) →
          resolveLoop selfAddr (p :: rest) localLen = resolveLoop selfAddr rest localLen)
      ∧ (∀ acc p, processPeer selfAddr acc p = acc
          ∨ ∃ len hs ch, p.1 ≠ selfAddr
              ∧ p.2.lenResp = some (200, len) ∧ len > acc.1
              ∧ p.2.headersResp = some (200, hs) ∧ valid_chain_headers hs = true
              ∧ p.2.chainResp = some (200, ch) ∧ valid_chain ch = true
              ∧ processPeer selfAddr acc p = (len, some ch))
      ∧ (∀ acc p len hs ch, p.1 ≠ selfAddr →
          p.2.lenResp = some (200, len) → len > acc.1 →
          p.2.headersResp = some (200, hs) → valid_chain_headers hs = true →
          p.2.chainResp = some (200, ch) → valid_chain ch = true →
          processPeer selfAddr acc p = (len, some ch))
      ∧ (∀ localLen c, (resolveLoop selfAddr peers localLen).2 = some c →
          valid_chain c = true ∧ c ≠ [])
      ∧ ((resolveLoop selfAddr peers (get_chain_length st)).2 = none →
          resolve_conflicts selfAddr peers st = (st, false))
      ∧ (∀ c, (resolveLoop selfAddr peers (get_chain_length st)).2 = some c →
          resolve_conflicts selfAddr peers st = (⟨c, [], c⟩, true)) := by
  intro selfAddr peers st
  have ha : ∀ (acc : Nat × Option (List BlockRec)) (p : Str × PeerResponses),
      (p.2.lenResp = none ∨ ∀ s l, p.2.lenResp = some (s, l) → s ≠ 200) →
      processPeer selfAddr acc p = acc := by
    intro acc p hp
    obtain ⟨addr, lenR, hdrR, chnR⟩ := p
    by_cases hself : addr == selfAddr
    · simp [processPeer, hself]
    · cases lenR with
      | none => simp [processPeer, hself]
      | some pr =>
        obtain ⟨s, l⟩ := pr
        have hs : s ≠ 200 := by
          rcases hp with hnone | hstat
          · exact absurd hnone (by simp)
          · exact hstat s l rfl
        simp [processPeer, hself, hs]
  have hb : ∀ (acc : Nat × Option (List BlockRec)) (p : Str × PeerResponses),
      processPeer selfAddr acc p = acc
      ∨ ∃ len hs ch, p.1 ≠ selfAddr
          ∧ p.2.lenResp = some (200, len) ∧ len > acc.1
          ∧ p.2.headersResp = some (200, hs) ∧ valid_chain_headers hs = true
          ∧ p.2.chainResp = some (200, ch) ∧ valid_chain ch = true
          ∧ processPeer selfAddr acc p = (len, some ch) := by
    intro acc p
    obtain ⟨addr, lenR, hdrR, chnR⟩ := p
    by_cases hself : addr == selfAddr
    · exact Or.inl (by simp [processPeer, hself])
    · cases lenR with
      | none => exact Or.inl (by simp [processPeer, hself])
      | some pr =>
        obtain ⟨s, l⟩ := pr
        by_cases hs200 : s = 200
        case neg => exact Or.inl (by simp [processPeer, hself, hs200])
        case pos =>
        subst hs200
        by_cases hgt : l > acc.1
        case neg => exact Or.inl (by simp [processPeer, hself, hgt])
        case pos =>
        cases hdrR with
        | none => exact Or.inl (by simp [processPeer, hself, hgt])
        | some pr2 =>
          obtain ⟨s2, hdrs⟩ := pr2
          by_cases hs2 : s2 = 200
          case neg => exact Or.inl (by simp [processPeer, hself, hgt, hs2])
          case pos =>
          subst hs2
          by_cases hvh : valid_chain_headers hdrs = true
          case neg => exact Or.inl (by simp [processPeer, hself, hgt, hvh])
          case pos =>
          cases chnR with
          | none => exact Or.inl (by simp [processPeer, hself, hgt, hvh])
          | some pr3 =>
            obtain ⟨s3, ch⟩ := pr3
            by_cases hs3 : s3 = 200
            case neg => exact Or.inl (by simp [processPeer, hself, hgt, hvh, hs3])
            case pos =>
            subst hs3
            by_cases hvc : valid_chain ch = true
            case neg => exact Or.inl (by simp [processPeer, hself, hgt, hvh, hvc])
            case pos =>
            refine Or.inr ⟨l, hdrs, ch, by simpa using hself, rfl, hgt, rfl, hvh,
              rfl, hvc, ?_⟩
            simp [processPeer, hself, hgt, hvh, hvc]
  have hb' : ∀ (acc : Nat × Option (List BlockRec)) (p : Str × PeerResponses)
      (len : Nat) (hs : List HeaderRec) (ch : List BlockRec), p.1 ≠ selfAddr →
      p.2.lenResp = some (200, len) → len > acc.1 →
      p.2.headersResp = some (200, hs) → valid_chain_headers hs = true →
      p.2.chainResp = some (200, ch) → valid_chain ch = true →
      processPeer selfAddr acc p = (len, some ch) := by
    intro acc p len hs ch hne hl hgt hh hvh hc hvc
    obtain ⟨addr, lenR, hdrR, chnR⟩ := p
    obtain rfl : lenR = some (200, len) := hl
    obtain rfl : hdrR = some (200, hs) := hh
    obtain rfl : chnR = some (200, ch) := hc
    have hself : ¬(addr == selfAddr) = true := by simpa using hne
    simp [processPeer, hself, hgt, hvh, hvc]
  have hinv : ∀ (ps : List (Str × PeerResponses)) (acc : Nat × Option (List BlockRec)),
      (∀ c, acc.2 = some c → valid_chain c = true) →
      ∀ c, (ps.foldl (processPeer selfAddr) acc).2 = some c → valid_chain c = true := by
    intro ps
    induction ps with
    | nil => intro acc hacc c hc; exact hacc c hc
    | cons p ps ih =>
      intro acc hacc c hc
      rw [List.foldl_cons] at hc
      refine ih (processPeer selfAddr acc p) ?_ c hc
      rcases hb acc p with heq | ⟨len, hs, ch, _, _, _, _, _, _, hvc, heq⟩
      · rw [heq]
        exact hacc
      · rw [heq]
        intro c' hc'
        obtain rfl := Option.some.inj hc'
        exact hvc
  have hcand : ∀ localLen c, (resolveLoop selfAddr peers localLen).2 = some c →
      valid_chain c = true ∧ c ≠ [] := by
    intro localLen c hc
    have hv := hinv peers (localLen, none) (by intro c' hc'; exact absurd hc' (by simp)) c hc
    refine ⟨hv, ?_⟩
    intro hnil
    rw [hnil] at hv
    exact absurd hv (by decide)
  refine ⟨ha, ?_, hb, hb', hcand, ?_, ?_⟩
  · intro localLen p rest hp
    simp only [resolveLoop, List.foldl_cons, ha (localLen, none) p hp]
  · intro hnone
    simp only [resolve_conflicts, hnone]
  · intro c hc
    simp only [resolve_conflicts, hc]
    rw [if_neg (hcand _ c hc).2]
    simp [replace_chain, get_all_blocks]

/-- C2 witness: a dead peer contributes nothing; a good peer with a longer
valid chain is adopted per-step; resolving against `[dead, good]` replaces
the chain with the candidate, clears pending transactions, reloads the
mirror and returns `true`; resolving against only the dead peer keeps the
state and returns `false`. -/
theorem resolve_conflicts_spec_witness :
    processPeer (str "me") (0, none) peerDead = (0, none)
    ∧ processPeer (str "me") (0, none) peerGood = (2, some chainW)
    ∧ resolve_conflicts (str "me") [peerDead, peerGood] stW =
        (⟨chainW, [], chainW⟩, true)
    ∧ resolve_conflicts (str "me") [peerDead] stW = (stW, false) :=
  ⟨(resolve_conflicts_spec (str "me") [] stW).1 (0, none) peerDead (Or.inl rfl),
   (resolve_conflicts_spec (str "me") [] stW).2.2.2.1 (0, none) peerGood 2 hdrsW chainW
     (by decide) rfl (by decide) rfl (by decide) rfl (by decide),
   (resolve_conflicts_spec (str "me") [peerDead, peerGood] stW).2.2.2.2.2.2 chainW
     (by decide),
   (resolve_conflicts_spec (str "me") [peerDead] stW).2.2.2.2.2.1 (by decide)⟩

end BCB
